import Mathlib

/-!
Shallow embedding of the reading half of the ZBinaryIO library
(`include/ZBinaryReader.hpp`): byte sources (`BufferSource`, `FileSource`),
the `CoverageTrackingSource` decorator and the typed `BinaryReader`
operations, together with theorems settling the specification claims.

Bytes are modelled as `Nat` values (a `char` read from a source, `0..255`);
positions and sizes are modelled as `Int` (the C++ `int64_t`), with the
`uint64_t` wraparound of `align` made explicit where the source performs it.
Fallible operations return an `Except` result *paired with* the post-call
state: a C++ `throw` leaves the object alive in whatever state the
mutations so far produced, so the state component is always meaningful.
-/

namespace ZBinaryIO

/-- `BinaryReader::Endianness` (source line 89). The platform is asserted
little-endian by the `static_assert` on line 11 of the header, so `LE` is
the native order. -/
inductive Endianness where
  | LE
  | BE
deriving DecidableEq, Repr

/-- The distinguishable failure conditions of the reader, one per `throw`
site reachable in the modelled code paths. `streamFail` stands for the
`std::ios_base::failure` raised from inside `std::ifstream` operations
because `FileSource`'s constructor sets the `failbit | badbit` exception
mask (source line 159). -/
inductive Err where
  | outOfBounds
  | doubleRead
  | invalidContent
  | invalidPadding
  | streamFail
deriving DecidableEq, Repr

/-- `BufferSource` (source lines 45-64, 196-230): a contiguous byte region
and a cursor. `cur` is `int64_t`, hence `Int`: `seek` is an unchecked
assignment and may store any value, including negative ones. -/
structure BufferSource where
  data : List Nat
  cur : Int
deriving DecidableEq, Repr

/-- `bufferSize`: the region length, fixed at construction. -/
def BufferSource.size (s : BufferSource) : Int := s.data.length

/-- The byte the region holds at offset `i`; `0` as junk outside `[0, size)`
(the C++ access there is out of bounds; `accessedOffsets` records which
offsets a copy touches, so nothing in the development relies on the junk). -/
def BufferSource.byteAt (s : BufferSource) (i : Int) : Nat :=
  if 0 ≤ i ∧ i < s.size then s.data.getD i.toNat 0 else 0

/-- The `len` bytes `memcpy` copies out of the region starting at the
current cursor (source line 210). -/
def BufferSource.window (s : BufferSource) (len : Nat) : List Nat :=
  (List.range len).map (fun k : Nat => s.byteAt (s.cur + (k : Int)))

/-- The offsets of the region that the `memcpy` of a `read`/`peek` of
`len` bytes accesses: `buffer[cur] .. buffer[cur+len-1]` (source line 210). -/
def BufferSource.accessedOffsets (s : BufferSource) (len : Nat) : List Int :=
  (List.range len).map (fun k : Nat => s.cur + (k : Int))

/-- `BufferSource::read` (source lines 207-212): guard `cur + len > bufferSize`,
then copy and advance. -/
def BufferSource.read (s : BufferSource) (len : Nat) :
    Except Err (List Nat) × BufferSource :=
  if s.cur + len > s.size then (.error .outOfBounds, s)
  else (.ok (s.window len), { s with cur := s.cur + len })

/-- `BufferSource::peek` (source lines 214-218): same guard and copy, no
cursor update (the member function is `const`). -/
def BufferSource.peek (s : BufferSource) (len : Nat) :
    Except Err (List Nat) × BufferSource :=
  if s.cur + len > s.size then (.error .outOfBounds, s)
  else (.ok (s.window len), s)

/-- `BufferSource::seek` (source lines 220-222): unchecked assignment,
"Seeking to OOB is not an error". -/
def BufferSource.seek (s : BufferSource) (off : Int) : BufferSource :=
  { s with cur := off }

/-- `BufferSource::tell` (source lines 224-226). -/
def BufferSource.tell (s : BufferSource) : Int := s.cur

/-- `FileSource` (source lines 26-43, 147-194): an `std::ifstream` opened at
construction with exception mask `failbit | badbit`, plus the size captured
once from the filesystem. `content` is the file's bytes, `pos` the stream's
get position, `fail` whether `failbit` is set (no modelled operation sets
`badbit`: short reads and bad seeks set `failbit`). -/
structure FileSource where
  content : List Nat
  pos : Int
  fail : Bool
deriving DecidableEq, Repr

/-- `FileSource::size` (source lines 192-194): the captured file size. -/
def FileSource.size (f : FileSource) : Int := f.content.length

/-- `FileSource::tell` (source lines 188-190): `ifs.tellg()`, which reports
`-1` once the stream is in a failed state. -/
def FileSource.tell (f : FileSource) : Int := if f.fail then -1 else f.pos

/-- `FileSource::read` (source lines 170-174): `ifs.read(dst, len)`. On a
failed stream the sentry refuses and rethrows `failbit`. A full read
transfers and advances. A short read (fewer than `len` bytes before
end-of-file) sets `eofbit | failbit`, which the exception mask turns into a
throw from inside `ifs.read`; the `ifs.bad()` check on line 172 is about
`badbit` only and is not reached in that case. Reading zero bytes extracts
nothing and succeeds. -/
def FileSource.read (f : FileSource) (len : Nat) :
    Except Err (List Nat) × FileSource :=
  if f.fail then (.error .streamFail, f)
  else if len = 0 then (.ok [], f)
  else if f.pos + len ≤ f.size then
    (.ok ((List.range len).map (fun k : Nat => f.content.getD (f.pos.toNat + k) 0)),
     { f with pos := f.pos + len })
  else (.error .streamFail, { f with fail := true })

/-- `FileSource::peek` (source lines 176-182): record `tell()`, read, seek
back. When the inner `ifs.read` throws (short read), the restoring
`ifs.seekg` on line 179 is never executed and the failure propagates. -/
def FileSource.peek (f : FileSource) (len : Nat) :
    Except Err (List Nat) × FileSource :=
  match f.read len with
  | (.ok bytes, f1) => (.ok bytes, { f1 with pos := f.pos })
  | (.error e, f1) => (.error e, f1)

/-- `FileSource::seek` (source lines 184-186): `ifs.seekg(offset, beg)`.
On a failed stream the sentry fails and rethrows. Otherwise the underlying
`filebuf::seekoff` succeeds for any non-negative offset (seeking past
end-of-file is legal for a file) but returns `pos_type(-1)` for a negative
one, upon which `seekg` sets `failbit` and the exception mask throws. -/
def FileSource.seek (f : FileSource) (off : Int) :
    Except Err Unit × FileSource :=
  if f.fail then (.error .streamFail, f)
  else if off < 0 then (.error .streamFail, { f with fail := true })
  else (.ok (), { f with pos := off })

/-- Interpretation of a byte list as an unsigned value in native
(little-endian) order: byte `0` is least significant. This is what storing
the raw bytes into a `uint32_t` (etc.) on the little-endian platform means. -/
def leVal : List Nat → Nat
  | [] => 0
  | b :: rest => b + 256 * leVal rest

/-- The byte-order correction `BinaryReader::read<T, en>` applies to one
element's raw bytes (source lines 290-293): `reverseEndianness` — a plain
`std::reverse` of the element's bytes (lines 241-245) — applied exactly when
the requested order is `BE` (the non-native order) and `sizeof(T) > 1`. -/
def condRev (k : Nat) (en : Endianness) (bytes : List Nat) : List Nat :=
  if en = .BE ∧ 1 < k then bytes.reverse else bytes

/-- `BinaryReader::read<T, en>(arr, len)` over a `BufferSource`
(source lines 287-294), at the level of raw element bytes: one delegated
read of `sizeof(T) * len` bytes, then the per-element byte-order correction
applied to each consecutive `sizeof(T)`-byte chunk independently.
`k` is `sizeof(T)`. -/
def readElems (k len : Nat) (en : Endianness) (s : BufferSource) :
    Except Err (List (List Nat)) × BufferSource :=
  match s.read (k * len) with
  | (.error e, s1) => (.error e, s1)
  | (.ok bytes, s1) =>
      (.ok ((List.range len).map (fun i => condRev k en ((bytes.drop (k * i)).take k))), s1)

/-- `T BinaryReader::read<T, en>()` (source lines 305-315) over a
`BufferSource`, for a scalar `T` of size `k`: a single-element array read,
returning the value of the corrected bytes on the little-endian platform. -/
def readScalar (k : Nat) (en : Endianness) (s : BufferSource) :
    Except Err Nat × BufferSource :=
  match s.read k with
  | (.error e, s1) => (.error e, s1)
  | (.ok bytes, s1) => (.ok (leVal (condRev k en bytes)), s1)

/-- `T BinaryReader::peek<T, en>()` (source lines 296-303, 328-335) over a
`BufferSource`: as `readScalar` but through the non-consuming `peek`. -/
def peekScalar (k : Nat) (en : Endianness) (s : BufferSource) :
    Except Err Nat × BufferSource :=
  match s.peek k with
  | (.error e, s1) => (.error e, s1)
  | (.ok bytes, s1) => (.ok (leVal (condRev k en bytes)), s1)

/-- `std::string BinaryReader::readString<len, en>()` (source lines 337-348)
over a `BufferSource`: read exactly `n` bytes (through `read<char, LE>`, so
no per-element correction), reverse the whole string when `en = LE`
(`reverseEndianness<std::string>`, lines 247-250), then fail if any null
byte occurs in the result. -/
def readStringFixed (n : Nat) (en : Endianness) (s : BufferSource) :
    Except Err (List Nat) × BufferSource :=
  match s.read n with
  | (.error e, s1) => (.error e, s1)
  | (.ok bytes, s1) =>
      let str := if en = .LE then bytes.reverse else bytes
      if 0 ∈ str then (.error .invalidContent, s1) else (.ok str, s1)

/-- The loop of `BinaryReader::readCString` (source lines 363-367) over a
`BufferSource`: read one byte at a time, accumulating until and including
the first null byte; the returned list excludes the terminator (line 369
drops the trailing null). `fuel` only bounds the recursion; the caller
passes enough for the loop to reach either a terminator or the read
failure, so the `0` case is never the deciding one. -/
def readCStringLoop : BufferSource → Nat → Except Err (List Nat) × BufferSource
  | s, 0 => (.error .outOfBounds, s)
  | s, fuel + 1 =>
      match s.read 1 with
      | (.error e, s1) => (.error e, s1)
      | (.ok bytes, s1) =>
          let c := bytes.getD 0 0
          if c = 0 then (.ok [], s1)
          else
            match readCStringLoop s1 fuel with
            | (.ok rest, s2) => (.ok (c :: rest), s2)
            | (.error e, s2) => (.error e, s2)

/-- `std::string BinaryReader::readCString<en>()` (source lines 359-375)
over a `BufferSource`: the byte-at-a-time loop, then the whole-string
reversal when `en = LE`. Every successful iteration advances the cursor by
one, so `(size - cur) + 1` steps always reach the terminator or the failing
read. -/
def readCString (en : Endianness) (s : BufferSource) :
    Except Err (List Nat) × BufferSource :=
  match readCStringLoop s ((s.size - s.cur).toNat + 1) with
  | (.ok str, s1) => (.ok (if en = .LE then str.reverse else str), s1)
  | (.error e, s1) => (.error e, s1)

/-- The padding length `BinaryReader::align<alignment>` computes
(source lines 380-381): `uint64_t pos = tell(); (alignment - pos) % alignment`,
all in `uint64_t` arithmetic. The cast of the `int64_t` position and the
subtraction both wrap modulo `2^64`; `(pos % 2^64).toNat < 2^64` makes the
`Nat` subtraction below exact, so the inner expression is precisely the
`uint64_t` value of `alignment - pos`. -/
def alignPadding (n : Nat) (pos : Int) : Nat :=
  ((n + 2 ^ 64 - (pos % (2 ^ 64 : Int)).toNat) % 2 ^ 64) % n

/-- `BinaryReader::align<alignment>` (source lines 377-383) over a
`BufferSource`: read `alignPadding` bytes into a scratch array and discard
them. -/
def align (n : Nat) (s : BufferSource) : Except Err Unit × BufferSource :=
  match s.read (alignPadding n s.tell) with
  | (.ok _, s1) => (.ok (), s1)
  | (.error e, s1) => (.error e, s1)

/-- `BinaryReader::alignZeroPad<alignment>` (source lines 385-396) over a
`BufferSource`: the same padding read (so a bounds failure is raised by the
read, before any content is inspected), then a failure if any consumed
padding byte is non-zero. -/
def alignZeroPad (n : Nat) (s : BufferSource) : Except Err Unit × BufferSource :=
  match s.read (alignPadding n s.tell) with
  | (.error e, s1) => (.error e, s1)
  | (.ok bytes, s1) =>
      if bytes.all (· = 0) then (.ok (), s1) else (.error .invalidPadding, s1)

/-- `CoverageTrackingSource<BufferSource>` (source lines 68-83, 402-433):
the wrapped backend plus the per-offset access counts
(`std::vector<char> accessPattern`). -/
structure CoverageTrackingSource where
  src : BufferSource
  accessPattern : List Nat
deriving DecidableEq, Repr

/-- The decorator's constructor (source lines 402-407): forward to the
backend's constructor and zero-initialise one count per byte of the
source. -/
def CoverageTrackingSource.mk0 (data : List Nat) : CoverageTrackingSource :=
  ⟨⟨data, 0⟩, List.replicate data.length 0⟩

/-- The instrumentation loop of `CoverageTrackingSource::read` (source
lines 413-416): `for(i = cur; i < cur + len; ++i) if(accessPattern[i]++) throw;`.
The post-increment bumps the count at `i` and tests the *old* value, so the
offset that triggers the violation is itself incremented before the throw
stops the loop. Returns the final counts and whether a violation occurred. -/
def covLoop : List Nat → Nat → Nat → List Nat × Bool
  | pat, _, 0 => (pat, false)
  | pat, i, len + 1 =>
      let old := pat.getD i 0
      let pat1 := pat.set i (old + 1)
      if old ≠ 0 then (pat1, true)
      else covLoop pat1 (i + 1) len

/-- `CoverageTrackingSource::read` (source lines 409-417): record the
pre-call position, delegate to the backend's `read` (which transfers into
`dst` and advances the cursor), then run the counting loop. The middle
component is the content of `dst` after the call: the delegate wrote it
even when the loop then throws (`[]` when the delegate itself failed and
wrote nothing). The claims exercise non-negative positions, where the
`Int.toNat` of the recorded position is exact. -/
def CoverageTrackingSource.read (s : CoverageTrackingSource) (len : Nat) :
    Except Err Unit × List Nat × CoverageTrackingSource :=
  let cur := s.src.tell
  match s.src.read len with
  | (.error e, b1) => (.error e, [], ⟨b1, s.accessPattern⟩)
  | (.ok bytes, b1) =>
      match covLoop s.accessPattern cur.toNat len with
      | (pat1, true) => (.error .doubleRead, bytes, ⟨b1, pat1⟩)
      | (pat1, false) => (.ok (), bytes, ⟨b1, pat1⟩)

/-- The decorator does not override `seek`: it is the backend's `seek`
(source line 80 overrides only `read`). -/
def CoverageTrackingSource.seek (s : CoverageTrackingSource) (off : Int) :
    CoverageTrackingSource :=
  ⟨s.src.seek off, s.accessPattern⟩

/-- `CoverageTrackingSource::completeCoverageInternal` (source lines
427-433): complete exactly when no count is `0`. -/
def CoverageTrackingSource.completeCoverageInternal
    (s : CoverageTrackingSource) : Bool :=
  !(s.accessPattern.contains 0)

/-- A reading schedule: each entry seeks to a (non-negative) offset and
reads a length, as a caller of the tracked reader would. -/
def runReads (s : CoverageTrackingSource) :
    List (Nat × Nat) → Bool × CoverageTrackingSource
  | [] => (true, s)
  | (p, l) :: rest =>
      let s1 := s.seek p
      match s1.read l with
      | (.ok _, _, s2) => runReads s2 rest
      | (.error _, _, s2) => (false, s2)

/-- The set of offsets a schedule entry reads. -/
def opRange (op : Nat × Nat) : Finset Nat := Finset.Ico op.1 (op.1 + op.2)

/-- The set of offsets a whole schedule reads. -/
def opsUnion : List (Nat × Nat) → Finset Nat
  | [] => ∅
  | op :: rest => opRange op ∪ opsUnion rest

/-- Decidable equality for `Except` results, for evaluating the model on
concrete inputs. -/
instance {ε α : Type} [DecidableEq ε] [DecidableEq α] : DecidableEq (Except ε α) :=
  fun a b =>
    match a, b with
    | .ok x, .ok y =>
        if h : x = y then .isTrue (by rw [h]) else .isFalse (by simp [h])
    | .error e, .error e2 =>
        if h : e = e2 then .isTrue (by rw [h]) else .isFalse (by simp [h])
    | .ok _, .error _ => .isFalse (by simp)
    | .error _, .ok _ => .isFalse (by simp)

theorem getD_set_self {l : List Nat} {i : Nat} {v : Nat} (h : i < l.length) :
    (l.set i v).getD i 0 = v := by
  simp [List.getD_eq_getElem?_getD, List.getElem?_set_self', List.getElem?_eq_getElem h]

theorem getD_set_ne {l : List Nat} {i j : Nat} {v : Nat} (h : i ≠ j) :
    (l.set i v).getD j 0 = l.getD j 0 := by
  simp [List.getD_eq_getElem?_getD, List.getElem?_set_ne h]

theorem window_length (s : BufferSource) (len : Nat) : (s.window len).length = len := by
  unfold BufferSource.window
  rw [List.length_map, List.length_range]

theorem window_getD {s : BufferSource} {len j : Nat} (h : j < len) :
    (s.window len).getD j 0 = s.byteAt (s.cur + j) := by
  unfold BufferSource.window
  rw [List.getD_eq_getElem?_getD, List.getElem?_map, List.getElem?_range h]
  rfl

theorem read_eq_ok {s : BufferSource} {len : Nat} (h : s.cur + len ≤ s.size) :
    s.read len = (.ok (s.window len), { s with cur := s.cur + len }) := by
  simp [BufferSource.read, not_lt.mpr h]

theorem read_eq_err {s : BufferSource} {len : Nat} (h : s.size < s.cur + len) :
    s.read len = (.error .outOfBounds, s) := by
  simp [BufferSource.read, h]

theorem covLoop_succ (pat : List Nat) (i m : Nat) :
    covLoop pat i (m + 1) =
      if pat.getD i 0 ≠ 0 then (pat.set i (pat.getD i 0 + 1), true)
      else covLoop (pat.set i (pat.getD i 0 + 1)) (i + 1) m := rfl

theorem covLoop_clean :
    ∀ (len : Nat) (pat : List Nat) (i : Nat),
      (∀ j, i ≤ j → j < i + len → pat.getD j 0 = 0) → i + len ≤ pat.length →
      (covLoop pat i len).2 = false ∧
      (covLoop pat i len).1.length = pat.length ∧
      ∀ j, (covLoop pat i len).1.getD j 0 =
        if i ≤ j ∧ j < i + len then pat.getD j 0 + 1 else pat.getD j 0 := by
  intro len
  induction len with
  | zero =>
      intro pat i _ _
      refine ⟨rfl, rfl, ?_⟩
      intro j
      rw [if_neg (by omega)]
      rfl
  | succ m ih =>
      intro pat i hz hlen
      have hi : i < pat.length := by omega
      have hold : pat.getD i 0 = 0 := hz i le_rfl (by omega)
      have hstep : covLoop pat i (m + 1) = covLoop (pat.set i (pat.getD i 0 + 1)) (i + 1) m := by
        rw [covLoop_succ, if_neg (by rw [hold]; exact fun h => h rfl)]
      have hz1 : ∀ j, i + 1 ≤ j → j < i + 1 + m → (pat.set i (pat.getD i 0 + 1)).getD j 0 = 0 := by
        intro j h1 h2
        rw [getD_set_ne (by omega)]
        exact hz j (by omega) (by omega)
      have hlen1 : i + 1 + m ≤ (pat.set i (pat.getD i 0 + 1)).length := by
        rw [List.length_set]; omega
      obtain ⟨hflag, hlen2, hget⟩ := ih (pat.set i (pat.getD i 0 + 1)) (i + 1) hz1 hlen1
      rw [hstep]
      refine ⟨hflag, by rw [hlen2, List.length_set], ?_⟩
      intro j
      rw [hget j]
      by_cases hj : j = i
      · subst hj
        rw [if_neg (by omega), if_pos (by omega), getD_set_self hi, hold]
      · rw [getD_set_ne (Ne.symm hj)]
        by_cases hj2 : i + 1 ≤ j ∧ j < i + 1 + m
        · rw [if_pos hj2, if_pos (by omega)]
        · rw [if_neg hj2, if_neg (by omega)]

theorem covLoop_dirty :
    ∀ (len : Nat) (pat : List Nat) (i j0 : Nat),
      i ≤ j0 → j0 < i + len → pat.getD j0 0 ≠ 0 →
      (∀ j, i ≤ j → j < j0 → pat.getD j 0 = 0) → j0 < pat.length →
      (covLoop pat i len).2 = true ∧
      (covLoop pat i len).1.length = pat.length ∧
      ∀ j, (covLoop pat i len).1.getD j 0 =
        if i ≤ j ∧ j ≤ j0 then pat.getD j 0 + 1 else pat.getD j 0 := by
  intro len
  induction len with
  | zero => intro pat i j0 h1 h2; omega
  | succ m ih =>
      intro pat i j0 h1 h2 hne hz hj0len
      by_cases hcase : i = j0
      · subst hcase
        have hstep : covLoop pat i (m + 1) = (pat.set i (pat.getD i 0 + 1), true) := by
          rw [covLoop_succ, if_pos hne]
        rw [hstep]
        refine ⟨rfl, by rw [List.length_set], ?_⟩
        intro j
        by_cases hj : j = i
        · subst hj
          rw [getD_set_self hj0len, if_pos ⟨le_rfl, le_rfl⟩]
        · rw [getD_set_ne (Ne.symm hj), if_neg (by omega)]
      · have hold : pat.getD i 0 = 0 := hz i le_rfl (by omega)
        have hstep : covLoop pat i (m + 1) = covLoop (pat.set i (pat.getD i 0 + 1)) (i + 1) m := by
          rw [covLoop_succ, if_neg (by rw [hold]; exact fun h => h rfl)]
        have hne1 : (pat.set i (pat.getD i 0 + 1)).getD j0 0 ≠ 0 := by
          rw [getD_set_ne (by omega)]; exact hne
        have hz1 : ∀ j, i + 1 ≤ j → j < j0 → (pat.set i (pat.getD i 0 + 1)).getD j 0 = 0 := by
          intro j ha hb
          rw [getD_set_ne (by omega)]
          exact hz j (by omega) hb
        obtain ⟨hflag, hlen2, hget⟩ :=
          ih (pat.set i (pat.getD i 0 + 1)) (i + 1) j0 (by omega) (by omega) hne1 hz1
            (by rw [List.length_set]; omega)
        rw [hstep]
        refine ⟨hflag, by rw [hlen2, List.length_set], ?_⟩
        intro j
        rw [hget j]
        by_cases hj : j = i
        · subst hj
          rw [if_neg (by omega), if_pos (by omega), getD_set_self (by omega), hold]
        · rw [getD_set_ne (Ne.symm hj)]
          by_cases hj2 : i + 1 ≤ j ∧ j ≤ j0
          · rw [if_pos hj2, if_pos (by omega)]
          · rw [if_neg hj2, if_neg (by omega)]

theorem covLoop_snd_true_iff :
    ∀ (len : Nat) (pat : List Nat) (i : Nat),
      (covLoop pat i len).2 = true ↔ ∃ j, i ≤ j ∧ j < i + len ∧ pat.getD j 0 ≠ 0 := by
  intro len
  induction len with
  | zero =>
      intro pat i
      constructor
      · intro h; exact absurd h (by rw [show covLoop pat i 0 = (pat, false) from rfl]; simp)
      · rintro ⟨j, h1, h2, _⟩; omega
  | succ m ih =>
      intro pat i
      by_cases hold : pat.getD i 0 = 0
      · have hstep : covLoop pat i (m + 1) = covLoop (pat.set i (pat.getD i 0 + 1)) (i + 1) m := by
          rw [covLoop_succ, if_neg (by rw [hold]; exact fun h => h rfl)]
        rw [hstep, ih]
        constructor
        · rintro ⟨j, h1, h2, h3⟩
          rw [getD_set_ne (by omega)] at h3
          exact ⟨j, by omega, by omega, h3⟩
        · rintro ⟨j, h1, h2, h3⟩
          by_cases hj : j = i
          · subst hj; exact absurd hold h3
          · exact ⟨j, by omega, by omega, by rw [getD_set_ne (by omega)]; exact h3⟩
      · have hstep : covLoop pat i (m + 1) = (pat.set i (pat.getD i 0 + 1), true) := by
          rw [covLoop_succ, if_pos hold]
        rw [hstep]
        simp only [true_iff]
        exact ⟨i, le_rfl, by omega, hold⟩

theorem getD_eq_getElem {α : Type} {l : List α} {k : Nat} {d : α} (hk : k < l.length) :
    l.getD k d = l[k] := by
  rw [List.getD_eq_getElem?_getD, List.getElem?_eq_getElem hk]
  rfl

theorem contains_zero_eq_false {pat : List Nat}
    (h : ∀ k, k < pat.length → pat.getD k 0 ≠ 0) : pat.contains 0 = false := by
  rw [Bool.eq_false_iff]
  intro hc
  have hmem : (0 : Nat) ∈ pat := List.elem_iff.mp hc
  obtain ⟨n, hn, hval⟩ := List.mem_iff_getElem.mp hmem
  exact h n hn (by rw [getD_eq_getElem hn, hval])

theorem contains_zero_of {pat : List Nat} {k : Nat} (hk : k < pat.length)
    (h : pat.getD k 0 = 0) : pat.contains 0 = true := by
  apply List.elem_iff.mpr
  rw [getD_eq_getElem hk] at h
  exact h ▸ List.getElem_mem hk

theorem covRead_eq (s : CoverageTrackingSource) (len : Nat) :
    s.read len =
      match s.src.read len with
      | (.error e, b1) => (.error e, [], ⟨b1, s.accessPattern⟩)
      | (.ok bytes, b1) =>
          match covLoop s.accessPattern s.src.cur.toNat len with
          | (pat1, true) => (.error .doubleRead, bytes, ⟨b1, pat1⟩)
          | (pat1, false) => (.ok (), bytes, ⟨b1, pat1⟩) := rfl

/-- A successful, violation-free tracked read: the delegate succeeds and no
offset in the range was previously read. -/
theorem covRead_clean {s : CoverageTrackingSource} {len : Nat}
    (hb : s.src.cur + len ≤ s.src.size)
    (hz : ∀ j, s.src.cur.toNat ≤ j → j < s.src.cur.toNat + len →
      s.accessPattern.getD j 0 = 0)
    (hlen : s.src.cur.toNat + len ≤ s.accessPattern.length) :
    s.read len = (.ok (), s.src.window len,
      ⟨{ s.src with cur := s.src.cur + len },
        (covLoop s.accessPattern s.src.cur.toNat len).1⟩) := by
  obtain ⟨hflag, _, _⟩ := covLoop_clean len s.accessPattern s.src.cur.toNat hz hlen
  have hpair : covLoop s.accessPattern s.src.cur.toNat len =
      ((covLoop s.accessPattern s.src.cur.toNat len).1, false) := by
    rw [← hflag]
  rw [covRead_eq, read_eq_ok hb, hpair]

theorem runReads_cons (s : CoverageTrackingSource) (p l : Nat) (rest : List (Nat × Nat)) :
    runReads s ((p, l) :: rest) =
      match (s.seek (p : Int)).read l with
      | (.ok _, _, s2) => runReads s2 rest
      | (.error _, _, s2) => (false, s2) := rfl

theorem opsUnion_subset_of {ops : List (Nat × Nat)} {n : Nat}
    (h : ∀ op ∈ ops, op.1 + op.2 ≤ n) : opsUnion ops ⊆ Finset.range n := by
  induction ops with
  | nil => simp [opsUnion]
  | cons op rest ih =>
      rw [opsUnion]
      apply Finset.union_subset
      · intro x hx
        rw [opRange, Finset.mem_Ico] at hx
        rw [Finset.mem_range]
        have := h op (by simp)
        omega
      · exact ih (fun o ho => h o (by simp [ho]))

/-- The coverage invariant carried through a schedule whose reads stay in
bounds, are pairwise disjoint, and avoid everything already covered: every
read succeeds and afterwards an offset counts as read exactly when some
schedule entry (or the prior coverage) contains it. -/
theorem runReads_clean :
    ∀ (ops : List (Nat × Nat)) (s : CoverageTrackingSource) (covered : Finset Nat),
      s.accessPattern.length = s.src.data.length →
      (∀ i, s.accessPattern.getD i 0 ≠ 0 ↔ i ∈ covered) →
      (∀ op ∈ ops, op.1 + op.2 ≤ s.src.data.length) →
      (∀ op ∈ ops, Disjoint (opRange op) covered) →
      ops.Pairwise (fun a b => Disjoint (opRange a) (opRange b)) →
      (runReads s ops).1 = true ∧
      (runReads s ops).2.src.data = s.src.data ∧
      (runReads s ops).2.accessPattern.length = s.accessPattern.length ∧
      (∀ i, (runReads s ops).2.accessPattern.getD i 0 ≠ 0 ↔ i ∈ covered ∪ opsUnion ops) := by
  intro ops
  induction ops with
  | nil =>
      intro s covered hlen hpat _ _ _
      refine ⟨rfl, rfl, rfl, ?_⟩
      intro i
      rw [opsUnion, Finset.union_empty]
      exact hpat i
  | cons op rest ih =>
      intro s covered hlen hpat hsub hdisjC hpw
      obtain ⟨p, l⟩ := op
      have hpl : p + l ≤ s.src.data.length := hsub (p, l) (by simp)
      set s1 : CoverageTrackingSource := s.seek (p : Int) with hs1
      have hs1src : s1.src = ⟨s.src.data, (p : Int)⟩ := rfl
      have hs1pat : s1.accessPattern = s.accessPattern := rfl
      have hb : s1.src.cur + l ≤ s1.src.size := by
        rw [hs1src]
        show (p : Int) + l ≤ (s.src.data.length : Int)
        exact_mod_cast hpl
      have htoNat : s1.src.cur.toNat = p := by rw [hs1src]; exact Int.toNat_natCast p
      have hdisj0 : Disjoint (opRange (p, l)) covered := hdisjC (p, l) (by simp)
      have hz : ∀ j, s1.src.cur.toNat ≤ j → j < s1.src.cur.toNat + l →
          s1.accessPattern.getD j 0 = 0 := by
        intro j h1 h2
        rw [htoNat] at h1 h2
        rw [hs1pat]
        by_contra hne
        have hjc : j ∈ covered := (hpat j).mp hne
        have hjr : j ∈ opRange (p, l) := by
          rw [opRange, Finset.mem_Ico]; exact ⟨h1, h2⟩
        exact Finset.disjoint_left.mp hdisj0 hjr hjc
      have hlen1 : s1.src.cur.toNat + l ≤ s1.accessPattern.length := by
        rw [htoNat, hs1pat, hlen]; exact hpl
      have hread := covRead_clean hb hz hlen1
      obtain ⟨_, hloopLen, hloopGet⟩ :=
        covLoop_clean l s1.accessPattern s1.src.cur.toNat hz hlen1
      set pat1 := (covLoop s1.accessPattern s1.src.cur.toNat l).1 with hpat1
      set s2 : CoverageTrackingSource :=
        ⟨{ s1.src with cur := s1.src.cur + l }, pat1⟩ with hs2
      have hstep : runReads s ((p, l) :: rest) = runReads s2 rest := by
        rw [runReads_cons, ← hs1, hread]
      have hlen2 : s2.accessPattern.length = s2.src.data.length := by
        show pat1.length = s.src.data.length
        rw [hloopLen, hs1pat, hlen]
      have hpat2 : ∀ i, s2.accessPattern.getD i 0 ≠ 0 ↔ i ∈ covered ∪ opRange (p, l) := by
        intro i
        show pat1.getD i 0 ≠ 0 ↔ _
        rw [hpat1, hloopGet i, htoNat]
        by_cases hi : p ≤ i ∧ i < p + l
        · rw [if_pos hi]
          have : i ∈ opRange (p, l) := by rw [opRange, Finset.mem_Ico]; exact hi
          simp [this]
        · rw [if_neg hi, hs1pat]
          have : i ∉ opRange (p, l) := by rw [opRange, Finset.mem_Ico]; exact hi
          rw [Finset.mem_union]
          constructor
          · intro hne; exact Or.inl ((hpat i).mp hne)
          · rintro (hc | hr)
            · exact (hpat i).mpr hc
            · exact absurd hr this
      have hsub2 : ∀ o ∈ rest, o.1 + o.2 ≤ s2.src.data.length := by
        intro o ho
        show o.1 + o.2 ≤ s.src.data.length
        exact hsub o (by simp [ho])
      have hdisj2 : ∀ o ∈ rest, Disjoint (opRange o) (covered ∪ opRange (p, l)) := by
        intro o ho
        rw [Finset.disjoint_union_right]
        refine ⟨hdisjC o (by simp [ho]), ?_⟩
        exact (List.pairwise_cons.mp hpw).1 o ho |>.symm
      obtain ⟨hok, hdata, hplen, hpiff⟩ :=
        ih s2 (covered ∪ opRange (p, l)) hlen2 hpat2 hsub2 hdisj2
          (List.pairwise_cons.mp hpw).2
      rw [hstep]
      refine ⟨hok, hdata, ?_, ?_⟩
      · rw [hplen]
        show pat1.length = s.accessPattern.length
        rw [hloopLen, hs1pat]
      · intro i
        rw [hpiff i, opsUnion, Finset.union_assoc]

theorem window_drop_take (s : BufferSource) {n a b : Nat} (hab : a + b ≤ n) :
    ((s.window n).drop a).take b =
      ({ s with cur := s.cur + (a : Int) } : BufferSource).window b := by
  apply List.ext_getElem
  · rw [List.length_take, List.length_drop, window_length, window_length]
    omega
  · intro j h1 h2
    rw [window_length] at h2
    simp only [List.getElem_take, List.getElem_drop]
    simp only [BufferSource.window, List.getElem_map, List.getElem_range]
    have harg : s.cur + ((a + j : Nat) : Int) = s.cur + (a : Int) + (j : Int) := by
      push_cast
      ring
    rw [harg]
    rfl

theorem readScalar_eq_ok {s : BufferSource} {k : Nat} {en : Endianness}
    (h : s.cur + k ≤ s.size) :
    readScalar k en s =
      (.ok (leVal (condRev k en (s.window k))), { s with cur := s.cur + k }) := by
  unfold readScalar
  rw [read_eq_ok h]

theorem fileRead_ok_inv {f : FileSource} {len : Nat} {bs : List Nat} {f1 : FileSource}
    (h : f.read len = (.ok bs, f1)) :
    f.fail = false ∧ f1.fail = false ∧ f1.pos = f.pos + len ∧ f1.content = f.content := by
  unfold FileSource.read at h
  split_ifs at h with h1 h2 h3
  · exact absurd h (by simp)
  · rw [Prod.mk.injEq] at h
    obtain ⟨-, hf⟩ := h
    subst hf
    refine ⟨by simpa using h1, by simpa using h1, by simp [h2], rfl⟩
  · rw [Prod.mk.injEq] at h
    obtain ⟨-, hf⟩ := h
    subst hf
    exact ⟨by simpa using h1, by simpa using h1, rfl, rfl⟩
  · exact absurd h (by simp)

/-- Claim C1: for every byte source and fixed-layout scalar type `T`,
`read<T>()` copies `sizeof(T)` raw bytes from the current position and
reverses each element's bytes in place exactly when the requested order is
not the native little-endian order and `sizeof(T) > 1`. On the little-endian
platform this means: with `LE` requested the value is the little-endian
reading of the copied window; with `BE` requested and `sizeof(T) > 1` it is
the little-endian reading of the reversed window; for a single-byte type
both orders behave identically (no reversal). For the array read, each
element is corrected independently: element `i` equals an independent
scalar read at offset `cur + sizeof(T)·i`. Concretely, over the buffer
`[0x44,0x33,0x22,0x11]`, `read<uint32_t>()` returns `0x11223344` with
little-endian order and `0x44332211` with big-endian order. -/
theorem claimC1 :
    (∀ (k : Nat) (s : BufferSource), s.cur + (k : Int) ≤ s.size →
      readScalar k .LE s = (.ok (leVal (s.window k)), { s with cur := s.cur + (k : Int) }) ∧
      (1 < k → readScalar k .BE s =
        (.ok (leVal ((s.window k).reverse)), { s with cur := s.cur + (k : Int) }))) ∧
    (∀ (s : BufferSource), readScalar 1 .BE s = readScalar 1 .LE s) ∧
    (∀ (k len : Nat) (en : Endianness) (s : BufferSource) (i : Nat),
      s.cur + ((k * len : Nat) : Int) ≤ s.size → i < len →
      ∃ es s1, readElems k len en s = (.ok es, s1) ∧
        s1.cur = s.cur + ((k * len : Nat) : Int) ∧ es.length = len ∧
        (readScalar k en { s with cur := s.cur + ((k * i : Nat) : Int) }).1 =
          .ok (leVal (es.getD i []))) ∧
    readScalar 4 .LE ⟨[0x44, 0x33, 0x22, 0x11], 0⟩ =
      (.ok 0x11223344, ⟨[0x44, 0x33, 0x22, 0x11], 4⟩) ∧
    readScalar 4 .BE ⟨[0x44, 0x33, 0x22, 0x11], 0⟩ =
      (.ok 0x44332211, ⟨[0x44, 0x33, 0x22, 0x11], 4⟩) := by
  refine ⟨?_, ?_, ?_, by decide, by decide⟩
  · intro k s h
    constructor
    · rw [readScalar_eq_ok h]
      rfl
    · intro hk
      rw [readScalar_eq_ok h]
      unfold condRev
      rw [if_pos ⟨rfl, hk⟩]
  · intro s
    unfold readScalar condRev
    cases hr : s.read 1 with
    | mk r s1 =>
        cases r <;> simp
  · intro k len en s i hb hi
    have hread := @read_eq_ok s (k * len) hb
    refine ⟨(List.range len).map
      (fun j : Nat => condRev k en (((s.window (k * len)).drop (k * j)).take k)),
      { s with cur := s.cur + ((k * len : Nat) : Int) }, ?_, rfl, by simp, ?_⟩
    · unfold readElems
      rw [hread]
    · have hchunk : ((s.window (k * len)).drop (k * i)).take k =
          ({ s with cur := s.cur + ((k * i : Nat) : Int) } : BufferSource).window k := by
        apply window_drop_take
        have : k * i + k = k * (i + 1) := by ring
        rw [this]
        exact Nat.mul_le_mul_left k hi
      have hb2 : ({ s with cur := s.cur + ((k * i : Nat) : Int) } : BufferSource).cur
          + (k : Int) ≤ ({ s with cur := s.cur + ((k * i : Nat) : Int) } : BufferSource).size := by
        show s.cur + ((k * i : Nat) : Int) + (k : Int) ≤ (s.data.length : Int)
        have hki : ((k * i : Nat) : Int) + (k : Int) ≤ ((k * len : Nat) : Int) := by
          push_cast
          have : k * i + k = k * (i + 1) := by ring
          have h2 : k * (i + 1) ≤ k * len := Nat.mul_le_mul_left k hi
          push_cast at this ⊢
          omega
        have := hb
        unfold BufferSource.size at this
        omega
      rw [readScalar_eq_ok hb2]
      have hgetD : ((List.range len).map
          (fun j : Nat => condRev k en (((s.window (k * len)).drop (k * j)).take k))).getD i [] =
          condRev k en (((s.window (k * len)).drop (k * i)).take k) := by
        rw [getD_eq_getElem (by simpa using hi)]
        simp
      rw [hgetD, hchunk]

/-- Claim C4: `peek` never changes the position — `BufferSource::peek`
leaves the cursor untouched in every case, and a successful
`FileSource::peek` restores the stream position; `read` of `n` bytes
advances the position by exactly `n` on success on both backends (so the
typed `read<T>()` advances `tell()` by exactly `sizeof(T)` and the typed
`peek<T>()` leaves `tell()` unchanged); a failed read leaves the position
unchanged on the buffer backend. -/
theorem claimC4 :
    (∀ (s : BufferSource) (len : Nat), (s.peek len).2 = s) ∧
    (∀ (f : FileSource) (len : Nat) (bs : List Nat) (f1 : FileSource),
      f.peek len = (.ok bs, f1) → f1.tell = f.tell) ∧
    (∀ (s : BufferSource) (len : Nat) (bs : List Nat) (s1 : BufferSource),
      s.read len = (.ok bs, s1) → s1.tell = s.tell + len) ∧
    (∀ (f : FileSource) (len : Nat) (bs : List Nat) (f1 : FileSource),
      f.read len = (.ok bs, f1) → f1.tell = f.tell + len) ∧
    (∀ (s : BufferSource) (len : Nat) (e : Err) (s1 : BufferSource),
      s.read len = (.error e, s1) → s1 = s) ∧
    (∀ (k : Nat) (en : Endianness) (s : BufferSource) (v : Nat) (s1 : BufferSource),
      readScalar k en s = (.ok v, s1) → s1.tell = s.tell + k) ∧
    (∀ (k : Nat) (en : Endianness) (s : BufferSource), (peekScalar k en s).2 = s) := by
  have hbufPeek : ∀ (s : BufferSource) (len : Nat), (s.peek len).2 = s := by
    intro s len
    unfold BufferSource.peek
    split <;> rfl
  have hbufReadOk : ∀ (s : BufferSource) (len : Nat) (bs : List Nat) (s1 : BufferSource),
      s.read len = (.ok bs, s1) → s1.tell = s.tell + len := by
    intro s len bs s1 h
    unfold BufferSource.read at h
    split_ifs at h with h1
    · exact absurd h (by simp)
    · rw [Prod.mk.injEq] at h
      obtain ⟨-, hs⟩ := h
      subst hs
      rfl
  have hbufReadErr : ∀ (s : BufferSource) (len : Nat) (e : Err) (s1 : BufferSource),
      s.read len = (.error e, s1) → s1 = s := by
    intro s len e s1 h
    unfold BufferSource.read at h
    split_ifs at h with h1
    · rw [Prod.mk.injEq] at h
      exact h.2.symm
    · exact absurd h (by simp)
  refine ⟨hbufPeek, ?_, hbufReadOk, ?_, hbufReadErr, ?_, ?_⟩
  · intro f len bs f1 h
    unfold FileSource.peek at h
    cases hr : f.read len with
    | mk r fr =>
        rw [hr] at h
        cases r with
        | ok bytes =>
            rw [Prod.mk.injEq] at h
            obtain ⟨-, hf⟩ := h
            subst hf
            obtain ⟨hfail, hfail1, -, -⟩ := fileRead_ok_inv hr
            show FileSource.tell { fr with pos := f.pos } = f.tell
            unfold FileSource.tell
            rw [hfail, hfail1]
        | error e => exact absurd h (by simp)
  · intro f len bs f1 h
    obtain ⟨hfail, hfail1, hpos, -⟩ := fileRead_ok_inv h
    unfold FileSource.tell
    rw [hfail, hfail1]
    simpa using hpos
  · intro k en s v s1 h
    unfold readScalar at h
    cases hr : s.read k with
    | mk r sr =>
        rw [hr] at h
        cases r with
        | ok bytes =>
            rw [Prod.mk.injEq] at h
            obtain ⟨-, hs⟩ := h
            subst hs
            exact hbufReadOk s k bytes sr hr
        | error e => exact absurd h (by simp)
  · intro k en s
    unfold peekScalar
    cases hr : s.peek k with
    | mk r sr =>
        have := hbufPeek s k
        rw [hr] at this
        cases r <;> simpa using this

/-- Claim C7, counterexample: the claim states that for every backend and
every offset value, `seek(offset)` succeeds unconditionally, negative
offsets included. On the file backend a negative seek is rejected at seek
time: the stream's `seekoff` fails and the exception mask raises — here at
the concrete healthy one-byte file source with offset `-1`. -/
theorem claimC7_counterexample :
    (⟨[0], 0, false⟩ : FileSource).fail = false ∧
    (FileSource.seek ⟨[0], 0, false⟩ (-1)).1 = .error .streamFail := by
  exact ⟨rfl, rfl⟩

/-- Claim C7, amended: the buffer backend's `seek` succeeds unconditionally
for every offset value (negative or beyond size, nothing is rejected); the
file backend's `seek` succeeds for every non-negative offset, including
`size()+1`, while negative offsets are rejected at seek time by the
underlying stream; on both backends only a subsequent `read`/`peek` that
would cross the extent boundary — even of a single byte at `size()+1` —
fails as out-of-bounds. -/
theorem claimC7_amended :
    (∀ (s : BufferSource) (off : Int), s.seek off = { s with cur := off }) ∧
    (∀ (f : FileSource) (off : Int), f.fail = false → 0 ≤ off →
      f.seek off = (.ok (), { f with pos := off })) ∧
    (∀ (s : BufferSource),
      ((s.seek (s.size + 1)).read 1).1 = .error .outOfBounds ∧
      ((s.seek (s.size + 1)).peek 1).1 = .error .outOfBounds) ∧
    (∀ (f : FileSource), f.fail = false →
      ((f.seek (f.size + 1)).2.read 1).1 = .error .streamFail ∧
      ((f.seek (f.size + 1)).2.peek 1).1 = .error .streamFail) := by
  have hseek : ∀ (f : FileSource), f.fail = false →
      f.seek (f.size + 1) = (.ok (), { f with pos := f.size + 1 }) := by
    intro f hf
    unfold FileSource.seek
    rw [if_neg (by rw [hf]; simp), if_neg (by unfold FileSource.size; omega)]
  have hreadErr : ∀ (f : FileSource) (len : Nat), f.fail = false → len ≠ 0 →
      f.size < f.pos + len →
      f.read len = (.error .streamFail, { f with fail := true }) := by
    intro f len hf hlen hsz
    unfold FileSource.read
    rw [if_neg (by rw [hf]; simp), if_neg hlen, if_neg (by omega)]
  have hfread : ∀ (f : FileSource), f.fail = false →
      ((f.seek (f.size + 1)).2.read 1).1 = .error .streamFail := by
    intro f hf
    rw [hseek f hf]
    show (FileSource.read { f with pos := f.size + 1 } 1).1 = .error .streamFail
    rw [hreadErr { f with pos := f.size + 1 } 1 hf (by omega)
      (by show (f.content.length : Int) < (f.content.length : Int) + 1 + ((1 : Nat) : Int)
          omega)]
  refine ⟨fun s off => rfl, ?_, ?_, ?_⟩
  · intro f off hf hoff
    unfold FileSource.seek
    rw [if_neg (by rw [hf]; simp), if_neg (by omega)]
  · intro s
    constructor
    · show (BufferSource.read { s with cur := s.size + 1 } 1).1 = .error .outOfBounds
      unfold BufferSource.read
      rw [if_pos (by show (_ : Int) < _; unfold BufferSource.size; push_cast; omega)]
    · show (BufferSource.peek { s with cur := s.size + 1 } 1).1 = .error .outOfBounds
      unfold BufferSource.peek
      rw [if_pos (by show (_ : Int) < _; unfold BufferSource.size; push_cast; omega)]
  · intro f hf
    refine ⟨hfread f hf, ?_⟩
    rw [hseek f hf]
    show (FileSource.peek { f with pos := f.size + 1 } 1).1 = .error .streamFail
    unfold FileSource.peek
    have := hfread f hf
    rw [hseek f hf] at this
    cases hr : FileSource.read { f with pos := f.size + 1 } 1 with
    | mk r fr =>
        rw [hr] at this
        cases r with
        | ok bytes => exact absurd this (by simp)
        | error e =>
            simp only at this
            rw [this]

/-- Claim C9: `BufferSource`'s `read` and `peek` reject a request exactly
when `position + len > size` — the guard tests only the upper bound. For
every call with a negative position (reachable, since `seek` is an
unchecked assignment) and `position + len ≤ size`, the error branch is not
taken and the `memcpy` accesses offsets outside `[0, size)`: the bounds
check does not guarantee the accessed range lies within the buffer. -/
theorem claimC9 :
    (∀ (s : BufferSource) (len : Nat),
      ((s.read len).1 = .error .outOfBounds ↔ s.size < s.cur + len) ∧
      ((s.peek len).1 = .error .outOfBounds ↔ s.size < s.cur + len)) ∧
    (∀ (s : BufferSource) (len : Nat), s.cur < 0 → s.cur + len ≤ s.size → 1 ≤ len →
      (s.read len).1 = .ok (s.window len) ∧
      s.cur ∈ s.accessedOffsets len ∧
      ¬(∀ i ∈ s.accessedOffsets len, 0 ≤ i)) := by
  constructor
  · intro s len
    constructor
    · unfold BufferSource.read
      split_ifs with h1
      · simpa using h1
      · constructor
        · intro h; exact absurd h (by simp)
        · intro h; exact absurd h (by omega)
    · unfold BufferSource.peek
      split_ifs with h1
      · simpa using h1
      · constructor
        · intro h; exact absurd h (by simp)
        · intro h; exact absurd h (by omega)
  · intro s len hneg hle hlen
    have hmem : s.cur ∈ s.accessedOffsets len := by
      unfold BufferSource.accessedOffsets
      rw [List.mem_map]
      exact ⟨0, by rw [List.mem_range]; omega, by simp⟩
    refine ⟨?_, hmem, ?_⟩
    · rw [read_eq_ok hle]
    · intro hall
      have := hall s.cur hmem
      omega

/-- When the alignment divides `2^64` (every power of two, in particular the
default 16), the `uint64_t` wraparound in the padding computation is
harmless and the code's padding agrees with the mathematical
`(n - p mod n) mod n`. -/
theorem alignPadding_eq {n : Nat} {p : Int} (h0 : 0 ≤ p) (h1 : p < 2 ^ 64)
    (hd : n ∣ 2 ^ 64) : alignPadding n p = (n - p.toNat % n) % n := by
  have hn : 0 < n := by
    rcases Nat.eq_zero_or_pos n with h | h
    · subst h
      rw [Nat.zero_dvd] at hd
      exact absurd hd (by positivity)
    · exact h
  unfold alignPadding
  have hmod : p % (2 ^ 64 : Int) = p := Int.emod_eq_of_lt h0 h1
  rw [hmod, Nat.mod_mod_of_dvd _ hd]
  set pt := p.toNat with hpt
  have hptlt : pt < 2 ^ 64 := by omega
  obtain ⟨m, hm⟩ := hd
  have hq := Nat.div_add_mod pt n
  have hr : pt % n < n := Nat.mod_lt _ hn
  have hqm : pt / n < m := by
    rw [Nat.div_lt_iff_lt_mul hn]
    calc pt < 2 ^ 64 := hptlt
    _ = m * n := by rw [hm]; ring
  have hnm : n * m = n * (pt / n) + n * (m - (pt / n)) := by
    rw [← Nat.mul_add]
    congr 1
    omega
  have hval : n + 2 ^ 64 - pt = n * (m - pt / n) + (n - pt % n) := by
    omega
  rw [hval]
  have hcomm : n * (m - pt / n) + (n - pt % n) = (n - pt % n) + (m - pt / n) * n := by
    ring
  rw [hcomm, Nat.add_mul_mod_self_right]

/-- Claim C3, counterexample: the claim states that from any in-bounds
position `p`, `align<N>()` consumes `(N - p) mod N` bytes, lands on the
next multiple of `N`, and consumes nothing when `p mod N = 0`. With
alignment 3 (not a power of two) at the aligned position 6 of an 8-byte
buffer, the `uint64_t` computation `(3 - 6) % 3 = (2^64 - 3) % 3 = 1`
consumes one byte and lands on 7, which is not a multiple of 3. -/
theorem claimC3_counterexample :
    ((6 : Int) % 3 = 0) ∧
    align 3 ⟨List.replicate 8 0, 6⟩ = (.ok (), ⟨List.replicate 8 0, 7⟩) ∧
    (7 : Int) % 3 ≠ 0 := by
  exact ⟨by decide, by decide, by decide⟩

/-- Claim C3, amended: for every alignment `N ≥ 1` that divides `2^64`
(in particular every power of two, including the default 16) and every
in-bounds position `p ≥ 0`, `align<N>()` consumes exactly `(N - p) mod N`
bytes, leaving the position at `p + ((N - p) mod N)`, a multiple of `N`;
when `p mod N = 0` it consumes zero bytes; it fails with the out-of-bounds
(end-of-stream) condition, leaving the position unchanged, when the padding
would read past the source's extent. For alignments that do not divide
`2^64` the padding is instead `((N + 2^64 - p) mod 2^64) mod N`
(see the counterexample). -/
theorem claimC3_amended :
    ∀ (n : Nat) (s : BufferSource), 1 ≤ n → n ∣ 2 ^ 64 → 0 ≤ s.cur → s.cur ≤ s.size →
      s.size < 2 ^ 63 →
      (s.cur + (((n - s.cur.toNat % n) % n : Nat) : Int) ≤ s.size →
        align n s =
          (.ok (), { s with cur := s.cur + (((n - s.cur.toNat % n) % n : Nat) : Int) }) ∧
        (s.cur + (((n - s.cur.toNat % n) % n : Nat) : Int)) % (n : Int) = 0) ∧
      (s.cur.toNat % n = 0 → align n s = (.ok (), s)) ∧
      (s.size < s.cur + (((n - s.cur.toNat % n) % n : Nat) : Int) →
        align n s = (.error .outOfBounds, s)) := by
  intro n s hn hd hc0 hcs hsz
  have hlt : s.cur < 2 ^ 64 := by omega
  have hpad : alignPadding n s.cur = (n - s.cur.toNat % n) % n := alignPadding_eq hc0 hlt hd
  have htell : s.tell = s.cur := rfl
  refine ⟨?_, ?_, ?_⟩
  · intro hin
    constructor
    · unfold align BufferSource.tell
      rw [hpad, read_eq_ok hin]
    · have hcur : s.cur = ((s.cur.toNat : Nat) : Int) := (Int.toNat_of_nonneg hc0).symm
      set pt := s.cur.toNat with hptd
      have hq := Nat.div_add_mod pt n
      have hrn : pt % n < n := Nat.mod_lt _ (by omega)
      have hnat : (pt + (n - pt % n) % n) % n = 0 := by
        by_cases hr0 : pt % n = 0
        · rw [hr0, Nat.sub_zero, Nat.mod_self, Nat.add_zero, hr0]
        · have hpadv : (n - pt % n) % n = n - pt % n := Nat.mod_eq_of_lt (by omega)
          rw [hpadv]
          have hsum : pt + (n - pt % n) = n * (pt / n + 1) := by
            rw [Nat.mul_add, Nat.mul_one]
            omega
          rw [hsum, Nat.mul_mod_right]
      rw [hcur]
      exact_mod_cast hnat
  · intro hr0
    have hp0 : (n - s.cur.toNat % n) % n = 0 := by
      rw [hr0, Nat.sub_zero, Nat.mod_self]
    unfold align BufferSource.tell
    rw [hpad, hp0, read_eq_ok (by omega)]
    have : s.cur + ((0 : Nat) : Int) = s.cur := by simp
    rw [this]
  · intro hout
    unfold align BufferSource.tell
    rw [hpad, read_eq_err (by omega)]

/-- Claim C8: for every alignment `N ≥ 1` and every position,
`alignZeroPad<N>()` consumes the same padding bytes as `align<N>()` (the
final source state is the same in every case), fails with the
invalid-padding condition if and only if some consumed padding byte is
non-zero, and when the padding read crosses the source's extent the
out-of-bounds failure is raised (by the read itself) strictly before any
padding-content check — the error is then out-of-bounds, never
invalid-padding. When every padding byte is zero it behaves exactly as
`align<N>()`. -/
theorem claimC8 :
    ∀ (n : Nat) (s : BufferSource), 1 ≤ n →
      ((alignZeroPad n s).2 = (align n s).2) ∧
      ((align n s).1 = .error .outOfBounds → (alignZeroPad n s).1 = .error .outOfBounds) ∧
      (∀ bytes s1, s.read (alignPadding n s.tell) = (.ok bytes, s1) →
        (((alignZeroPad n s).1 = .error .invalidPadding) ↔ ∃ b ∈ bytes, b ≠ 0) ∧
        ((∀ b ∈ bytes, b = 0) → alignZeroPad n s = align n s)) := by
  intro n s _
  unfold align alignZeroPad
  cases hr : s.read (alignPadding n s.tell) with
  | mk r s1 =>
      cases r with
      | error e =>
          dsimp only
          refine ⟨rfl, fun h => h, ?_⟩
          intro bytes s2 heq
          exact absurd heq (by simp)
      | ok bytes =>
          dsimp only
          by_cases hz : bytes.all (fun b => decide (b = 0)) = true
          · rw [if_pos hz]
            refine ⟨rfl, fun h => absurd h (by simp), ?_⟩
            intro bytes2 s2 heq
            rw [Prod.mk.injEq] at heq
            obtain ⟨hb, hs⟩ := heq
            have hb2 : bytes = bytes2 := by simpa using hb
            subst hb2
            subst hs
            constructor
            · constructor
              · intro h; exact absurd h (by simp)
              · intro ⟨b, hbm, hbne⟩
                rw [List.all_eq_true] at hz
                exact absurd (by simpa using hz b hbm) hbne
            · intro _; rfl
          · rw [if_neg hz]
            refine ⟨rfl, fun h => absurd h (by simp), ?_⟩
            intro bytes2 s2 heq
            rw [Prod.mk.injEq] at heq
            obtain ⟨hb, hs⟩ := heq
            have hb2 : bytes = bytes2 := by simpa using hb
            subst hb2
            subst hs
            constructor
            · constructor
              · intro _
                rw [List.all_eq_true] at hz
                push_neg at hz
                obtain ⟨b, hbm, hbne⟩ := hz
                exact ⟨b, hbm, by simpa using hbne⟩
              · intro _; rfl
            · intro hall
              exfalso
              apply hz
              rw [List.all_eq_true]
              intro b hbm
              simpa using hall b hbm

/-- Claim C5: for every fixed length `N` and every source with at least `N`
bytes available at the current position, `readString<N>()` reads exactly
`N` bytes (advancing the cursor by `N`), reverses the whole string as one
unit when little-endian order is requested, and fails with the
invalid-content condition if and only if a null byte remains in the result
after the reversal (equivalently, occurs among the consumed bytes).
Concretely, `readString<4>()` over the bytes of `"tseT"` with reversed
order returns `"Test"`, and the same call over four bytes containing `0x00`
fails. -/
theorem claimC5 :
    (∀ (s : BufferSource) (n : Nat) (en : Endianness), s.cur + (n : Int) ≤ s.size →
      (((readStringFixed n en s).1 = .error .invalidContent) ↔ 0 ∈ s.window n) ∧
      (0 ∉ s.window n →
        readStringFixed n en s =
          (.ok (if en = .LE then (s.window n).reverse else s.window n),
            { s with cur := s.cur + (n : Int) }))) ∧
    readStringFixed 4 .LE ⟨[0x74, 0x73, 0x65, 0x54], 0⟩ =
      (.ok [0x54, 0x65, 0x73, 0x74], ⟨[0x74, 0x73, 0x65, 0x54], 4⟩) ∧
    (readStringFixed 4 .LE ⟨[0x74, 0x00, 0x65, 0x54], 0⟩).1 = .error .invalidContent := by
  refine ⟨?_, by decide, by decide⟩
  intro s n en hb
  unfold readStringFixed
  rw [read_eq_ok hb]
  dsimp only
  have hmemiff : 0 ∈ (if en = .LE then (s.window n).reverse else s.window n) ↔
      0 ∈ s.window n := by
    split_ifs
    · exact List.mem_reverse
    · exact Iff.rfl
  by_cases hm : 0 ∈ s.window n
  · rw [if_pos (hmemiff.mpr hm)]
    exact ⟨⟨fun _ => hm, fun _ => rfl⟩, fun hno => absurd hm hno⟩
  · rw [if_neg (fun hmem => hm (hmemiff.mp hmem))]
    refine ⟨⟨fun h => absurd h (by simp), fun h => absurd h hm⟩, fun _ => rfl⟩

theorem readCStringLoop_succ (s : BufferSource) (fuel : Nat) :
    readCStringLoop s (fuel + 1) =
      match s.read 1 with
      | (.error e, s1) => (.error e, s1)
      | (.ok bytes, s1) =>
          if bytes.getD 0 0 = 0 then (.ok [], s1)
          else
            match readCStringLoop s1 fuel with
            | (.ok rest, s2) => (.ok (bytes.getD 0 0 :: rest), s2)
            | (.error e, s2) => (.error e, s2) := rfl

/-- The `readCString` loop when a terminator exists at offset `t`, every
byte before it (from the cursor on) being non-null: it returns the bytes
strictly between the cursor and `t` and leaves the cursor just past the
terminator. -/
theorem readCStringLoop_terminator :
    ∀ (fuel : Nat) (s : BufferSource) (t : Nat),
      0 ≤ s.cur → s.cur.toNat ≤ t → (t : Int) < s.size →
      s.data.getD t 0 = 0 →
      (∀ j, s.cur.toNat ≤ j → j < t → s.data.getD j 0 ≠ 0) →
      t + 1 - s.cur.toNat ≤ fuel →
      readCStringLoop s fuel =
        (.ok ((s.data.drop s.cur.toNat).take (t - s.cur.toNat)),
          { s with cur := ((t : Nat) : Int) + 1 }) := by
  intro fuel
  induction fuel with
  | zero =>
      intro s t h0 hct hts hterm hnz hfuel
      omega
  | succ m ih =>
      intro s t h0 hct hts hterm hnz hfuel
      have hsz : s.size = (s.data.length : Int) := rfl
      have hb : s.cur + ((1 : Nat) : Int) ≤ s.size := by omega
      rw [readCStringLoop_succ, read_eq_ok hb]
      dsimp only
      have hwin : (s.window 1).getD 0 0 = s.byteAt (s.cur + ((0 : Nat) : Int)) :=
        window_getD (by omega)
      have hbyte : (s.window 1).getD 0 0 = s.data.getD s.cur.toNat 0 := by
        rw [hwin]
        unfold BufferSource.byteAt
        rw [if_pos (by constructor <;> omega)]
        congr 1
        omega
      by_cases hend : s.cur.toNat = t
      · rw [hbyte, if_pos (by rw [hend]; exact hterm)]
        rw [hend, Nat.sub_self, List.take_zero]
        have : s.cur + ((1 : Nat) : Int) = ((t : Nat) : Int) + 1 := by omega
        rw [this]
      · have hlt : s.cur.toNat < t := by omega
        rw [hbyte, if_neg (hnz s.cur.toNat le_rfl hlt)]
        set s1 : BufferSource := { s with cur := s.cur + ((1 : Nat) : Int) } with hs1
        have h01 : 0 ≤ s1.cur := by show 0 ≤ s.cur + ((1 : Nat) : Int); omega
        have hct1 : s1.cur.toNat = s.cur.toNat + 1 := by
          show (s.cur + ((1 : Nat) : Int)).toNat = s.cur.toNat + 1
          omega
        have hs1sz : s1.size = s.size := rfl
        have hrec := ih s1 t h01 (by omega) (by rw [hs1sz]; omega) hterm
          (fun j hj1 hj2 => hnz j (by omega) hj2) (by omega)
        rw [hrec]
        dsimp only
        have hcurlen : s.cur.toNat < s.data.length := by omega
        have hdrop : s.data.drop s.cur.toNat =
            s.data.getD s.cur.toNat 0 :: s.data.drop (s.cur.toNat + 1) := by
          rw [getD_eq_getElem hcurlen]
          exact List.drop_eq_getElem_cons hcurlen
        have htake : (s.data.drop s.cur.toNat).take (t - s.cur.toNat) =
            s.data.getD s.cur.toNat 0 ::
              (s.data.drop (s.cur.toNat + 1)).take (t - (s.cur.toNat + 1)) := by
          rw [hdrop]
          have : t - s.cur.toNat = (t - (s.cur.toNat + 1)) + 1 := by omega
          rw [this, List.take_succ_cons]
        rw [htake, hct1]

/-- The `readCString` loop when no terminator remains: every successful
one-byte read advances the cursor until the read at the extent fails
out-of-bounds, the cursor resting at the extent. -/
theorem readCStringLoop_exhaust :
    ∀ (fuel : Nat) (s : BufferSource),
      0 ≤ s.cur → s.cur ≤ s.size →
      (∀ j, s.cur.toNat ≤ j → j < s.data.length → s.data.getD j 0 ≠ 0) →
      (s.size - s.cur).toNat < fuel →
      readCStringLoop s fuel = (.error .outOfBounds, { s with cur := s.size }) := by
  intro fuel
  induction fuel with
  | zero =>
      intro s h0 hcs hnz hfuel
      omega
  | succ m ih =>
      intro s h0 hcs hnz hfuel
      have hsz : s.size = (s.data.length : Int) := rfl
      by_cases hend : s.cur = s.size
      · rw [readCStringLoop_succ, read_eq_err (by omega)]
        dsimp only
        rw [show ({ s with cur := s.size } : BufferSource) = s by rw [← hend]]
      · have hb : s.cur + ((1 : Nat) : Int) ≤ s.size := by omega
        rw [readCStringLoop_succ, read_eq_ok hb]
        dsimp only
        have hwin : (s.window 1).getD 0 0 = s.byteAt (s.cur + ((0 : Nat) : Int)) :=
          window_getD (by omega)
        have hbyte : (s.window 1).getD 0 0 = s.data.getD s.cur.toNat 0 := by
          rw [hwin]
          unfold BufferSource.byteAt
          rw [if_pos (by constructor <;> omega)]
          congr 1
          omega
        rw [hbyte, if_neg (hnz s.cur.toNat le_rfl (by omega))]
        set s1 : BufferSource := { s with cur := s.cur + ((1 : Nat) : Int) } with hs1
        have hrec := ih s1 (by show 0 ≤ s.cur + ((1 : Nat) : Int); omega)
          (by show s.cur + ((1 : Nat) : Int) ≤ s.size; omega)
          (fun j hj1 hj2 => hnz j (by
            have : s1.cur.toNat = s.cur.toNat + 1 := by
              show (s.cur + ((1 : Nat) : Int)).toNat = s.cur.toNat + 1
              omega
            omega) hj2)
          (by show ((s.size - (s.cur + ((1 : Nat) : Int))).toNat < m); omega)
        rw [hrec]
        dsimp only
        rfl

/-- Claim C6: `readCString()` reads bytes one at a time until and including
the first null terminator: when the first null at or after the cursor sits
at offset `t` it returns exactly the bytes before the terminator
(whole-string reversed when little-endian order is requested) and leaves
the cursor at `t + 1`, immediately after the null byte; when the source is
exhausted before any terminator it fails with the out-of-bounds
(end-of-stream) condition. Concretely, over the bytes of `"Test\0"` it
returns `"Test"` with the cursor at 5, and a second call on the exhausted
source fails. -/
theorem claimC6 :
    (∀ (s : BufferSource) (en : Endianness) (t : Nat),
      0 ≤ s.cur → s.cur.toNat ≤ t → (t : Int) < s.size →
      s.data.getD t 0 = 0 →
      (∀ j, s.cur.toNat ≤ j → j < t → s.data.getD j 0 ≠ 0) →
      readCString en s =
        (.ok (if en = .LE then ((s.data.drop s.cur.toNat).take (t - s.cur.toNat)).reverse
              else (s.data.drop s.cur.toNat).take (t - s.cur.toNat)),
          { s with cur := ((t : Nat) : Int) + 1 })) ∧
    (∀ (s : BufferSource) (en : Endianness),
      0 ≤ s.cur → s.cur ≤ s.size →
      (∀ j, s.cur.toNat ≤ j → j < s.data.length → s.data.getD j 0 ≠ 0) →
      (readCString en s).1 = .error .outOfBounds) ∧
    readCString .BE ⟨[0x54, 0x65, 0x73, 0x74, 0], 0⟩ =
      (.ok [0x54, 0x65, 0x73, 0x74], ⟨[0x54, 0x65, 0x73, 0x74, 0], 5⟩) ∧
    (readCString .BE ⟨[0x54, 0x65, 0x73, 0x74, 0], 5⟩).1 = .error .outOfBounds := by
  refine ⟨?_, ?_, by decide, by decide⟩
  · intro s en t h0 hct hts hterm hnz
    unfold readCString
    have hfuel : t + 1 - s.cur.toNat ≤ (s.size - s.cur).toNat + 1 := by
      have hsz : s.size = (s.data.length : Int) := rfl
      omega
    rw [readCStringLoop_terminator ((s.size - s.cur).toNat + 1) s t h0 hct hts hterm hnz hfuel]
  · intro s en h0 hcs hnz
    unfold readCString
    rw [readCStringLoop_exhaust ((s.size - s.cur).toNat + 1) s h0 hcs hnz (by omega)]

theorem getD_replicate_zero (n i : Nat) : (List.replicate n 0).getD i 0 = 0 := by
  by_cases h : i < n
  · rw [getD_eq_getElem (by simpa using h), List.getElem_replicate]
  · rw [List.getD_eq_getElem?_getD, List.getElem?_eq_none (by simpa using h)]
    rfl

/-- Claim C2: for a backend of size `N` wrapped in the coverage decorator,
reading every byte exactly once — any schedule of in-bounds, pairwise
disjoint reads whose ranges together cover `[0, N)` — succeeds and makes
the coverage query report complete coverage; a schedule covering only
`N - 1` of the `N` offsets reports incomplete coverage; and any read whose
range contains an already-read offset fails with the double-read
violation, raised only after the delegated read has transferred the bytes
and advanced the position (no rollback). -/
theorem claimC2 :
    (∀ (data : List Nat) (ops : List (Nat × Nat)),
      (∀ op ∈ ops, op.1 + op.2 ≤ data.length) →
      ops.Pairwise (fun a b => Disjoint (opRange a) (opRange b)) →
      opsUnion ops = Finset.range data.length →
      (runReads (CoverageTrackingSource.mk0 data) ops).1 = true ∧
      (runReads (CoverageTrackingSource.mk0 data) ops).2.completeCoverageInternal = true) ∧
    (∀ (data : List Nat) (ops : List (Nat × Nat)),
      (∀ op ∈ ops, op.1 + op.2 ≤ data.length) →
      ops.Pairwise (fun a b => Disjoint (opRange a) (opRange b)) →
      1 ≤ data.length →
      (opsUnion ops).card = data.length - 1 →
      (runReads (CoverageTrackingSource.mk0 data) ops).1 = true ∧
      (runReads (CoverageTrackingSource.mk0 data) ops).2.completeCoverageInternal = false) ∧
    (∀ (s : CoverageTrackingSource) (len : Nat) (j : Nat),
      0 ≤ s.src.cur → s.src.cur + (len : Int) ≤ s.src.size →
      s.src.cur.toNat ≤ j → j < s.src.cur.toNat + len →
      s.accessPattern.getD j 0 ≠ 0 →
      (s.read len).1 = .error .doubleRead ∧
      (s.read len).2.1 = s.src.window len ∧
      (s.read len).2.2.src.cur = s.src.cur + (len : Int)) := by
  have hmk0len : ∀ (data : List Nat),
      (CoverageTrackingSource.mk0 data).accessPattern.length =
        (CoverageTrackingSource.mk0 data).src.data.length := by
    intro data
    show (List.replicate data.length 0).length = data.length
    rw [List.length_replicate]
  have hmk0pat : ∀ (data : List Nat) (i : Nat),
      (CoverageTrackingSource.mk0 data).accessPattern.getD i 0 ≠ 0 ↔ i ∈ (∅ : Finset Nat) := by
    intro data i
    show (List.replicate data.length 0).getD i 0 ≠ 0 ↔ _
    rw [getD_replicate_zero]
    simp
  refine ⟨?_, ?_, ?_⟩
  · intro data ops hsub hpw huni
    obtain ⟨hok, -, hplen, hpiff⟩ :=
      runReads_clean ops (CoverageTrackingSource.mk0 data) ∅ (hmk0len data) (hmk0pat data)
        hsub (fun op _ => Finset.disjoint_empty_right _) hpw
    refine ⟨hok, ?_⟩
    unfold CoverageTrackingSource.completeCoverageInternal
    rw [contains_zero_eq_false, Bool.not_false]
    intro k hk
    rw [hplen, hmk0len data] at hk
    apply (hpiff k).mpr
    rw [Finset.empty_union, huni, Finset.mem_range]
    exact hk
  · intro data ops hsub hpw hpos hcard
    obtain ⟨hok, -, hplen, hpiff⟩ :=
      runReads_clean ops (CoverageTrackingSource.mk0 data) ∅ (hmk0len data) (hmk0pat data)
        hsub (fun op _ => Finset.disjoint_empty_right _) hpw
    refine ⟨hok, ?_⟩
    have hrange : opsUnion ops ⊆ Finset.range data.length := opsUnion_subset_of hsub
    have hne : opsUnion ops ≠ Finset.range data.length := by
      intro he
      rw [he, Finset.card_range] at hcard
      omega
    obtain ⟨m, hmr, hmn⟩ := Finset.exists_of_ssubset (ssubset_of_subset_of_ne hrange hne)
    rw [Finset.mem_range] at hmr
    have hm0 : (runReads (CoverageTrackingSource.mk0 data) ops).2.accessPattern.getD m 0 = 0 := by
      by_contra hm1
      have := (hpiff m).mp hm1
      rw [Finset.empty_union] at this
      exact hmn this
    unfold CoverageTrackingSource.completeCoverageInternal
    rw [contains_zero_of (by rw [hplen, hmk0len data]; exact hmr) hm0]
    rfl
  · intro s len j h0 hb hj1 hj2 hne
    have hflag : (covLoop s.accessPattern s.src.cur.toNat len).2 = true :=
      (covLoop_snd_true_iff len s.accessPattern s.src.cur.toNat).mpr ⟨j, hj1, hj2, hne⟩
    have hpair : covLoop s.accessPattern s.src.cur.toNat len =
        ((covLoop s.accessPattern s.src.cur.toNat len).1, true) := by
      rw [← hflag]
    rw [covRead_eq, read_eq_ok hb, hpair]
    exact ⟨rfl, rfl, rfl⟩

/-- Claim C10, counterexample: the claim states that on a double-read
violation the first already-read offset keeps its previous count. Over a
two-byte tracked source, after reading offset 0 once (count 1), seeking
back and reading two bytes raises the violation — but the post-increment
`accessPattern[i]++` has bumped the violating offset 0 from 1 to 2 before
the throw, so it does not keep its previous count. -/
theorem claimC10_counterexample :
    ((CoverageTrackingSource.mk0 [5, 6]).read 1).2.2.accessPattern.getD 0 0 = 1 ∧
    ((((CoverageTrackingSource.mk0 [5, 6]).read 1).2.2.seek 0).read 2).1 =
      .error .doubleRead ∧
    ((((CoverageTrackingSource.mk0 [5, 6]).read 1).2.2.seek 0).read 2).2.2.accessPattern.getD
      0 0 = 2 := by
  exact ⟨by decide, by decide, by decide⟩

/-- Claim C10, amended: when a tracked read raises the double-read
violation, the counting loop has incremented the counts of the offsets
from the start of the range up to and including the first already-read
offset (the post-increment bumps that offset past 1 before the throw);
every offset strictly after it in the range keeps its previous count, even
though the delegated read already transferred those bytes and advanced the
position. Consequently the coverage query can report incomplete coverage
even though every byte of the source was transferred, and a subsequent
read of those later offsets raises no violation — shown concretely on a
two-byte source where a violating two-byte read transfers both bytes, the
coverage query still reports incomplete, and offset 1 can then be read
without violation. -/
theorem claimC10_amended :
    (∀ (s : CoverageTrackingSource) (len : Nat) (j0 : Nat),
      0 ≤ s.src.cur → s.src.cur + (len : Int) ≤ s.src.size →
      s.accessPattern.length = s.src.data.length →
      s.src.cur.toNat ≤ j0 → j0 < s.src.cur.toNat + len →
      s.accessPattern.getD j0 0 ≠ 0 →
      (∀ j, s.src.cur.toNat ≤ j → j < j0 → s.accessPattern.getD j 0 = 0) →
      (s.read len).1 = .error .doubleRead ∧
      (s.read len).2.1 = s.src.window len ∧
      (s.read len).2.2.src.cur = s.src.cur + (len : Int) ∧
      (∀ j, (s.read len).2.2.accessPattern.getD j 0 =
        if s.src.cur.toNat ≤ j ∧ j ≤ j0 then s.accessPattern.getD j 0 + 1
        else s.accessPattern.getD j 0)) ∧
    ((((CoverageTrackingSource.mk0 [5, 6]).read 1).2.2.seek 0).read 2).2.1 = [5, 6] ∧
    ((((CoverageTrackingSource.mk0 [5, 6]).read 1).2.2.seek 0).read
      2).2.2.completeCoverageInternal = false ∧
    ((((((CoverageTrackingSource.mk0 [5, 6]).read 1).2.2.seek 0).read 2).2.2.seek 1).read
      1).1 = .ok () := by
  refine ⟨?_, by decide, by decide, by decide⟩
  intro s len j0 h0 hb hlen hj1 hj2 hne hz
  have hj0len : j0 < s.accessPattern.length := by
    have hsz : s.src.size = (s.src.data.length : Int) := rfl
    omega
  obtain ⟨hflag, -, hget⟩ :=
    covLoop_dirty len s.accessPattern s.src.cur.toNat j0 hj1 hj2 hne hz hj0len
  have hpair : covLoop s.accessPattern s.src.cur.toNat len =
      ((covLoop s.accessPattern s.src.cur.toNat len).1, true) := by
    rw [← hflag]
  rw [covRead_eq, read_eq_ok hb, hpair]
  exact ⟨rfl, rfl, rfl, hget⟩

/-- Witness for claim C1 at concrete inputs: a two-byte scalar read over
`[1,2,3]` in both orders, and element 0 of a two-element one-byte array
read over `[7,8]`. -/
theorem claimC1_witness :
    ((0 : Int) + ((2 : Nat) : Int) ≤ (⟨[1, 2, 3], 0⟩ : BufferSource).size ∧
      (readScalar 2 .LE ⟨[1, 2, 3], 0⟩ = (.ok 513, ⟨[1, 2, 3], 2⟩) ∧
        (1 < 2 → readScalar 2 .BE ⟨[1, 2, 3], 0⟩ = (.ok 258, ⟨[1, 2, 3], 2⟩)))) ∧
    ((0 : Int) + ((1 * 2 : Nat) : Int) ≤ (⟨[7, 8], 0⟩ : BufferSource).size ∧
      ∃ es s1, readElems 1 2 .BE ⟨[7, 8], 0⟩ = (.ok es, s1) ∧
        s1.cur = (0 : Int) + ((1 * 2 : Nat) : Int) ∧ es.length = 2 ∧
        (readScalar 1 .BE ⟨[7, 8], (0 : Int) + ((1 * 0 : Nat) : Int)⟩).1 =
          .ok (leVal (es.getD 0 []))) :=
  ⟨⟨by decide, claimC1.1 2 ⟨[1, 2, 3], 0⟩ (by decide)⟩,
   ⟨by decide, claimC1.2.2.1 1 2 .BE ⟨[7, 8], 0⟩ 0 (by decide) (by decide)⟩⟩

/-- Witness for claim C2 at concrete inputs: a two-byte source fully
covered by two disjoint one-byte reads, the same source with one byte left
unread, and a double-read of offset 0 after it was already read. -/
theorem claimC2_witness :
    ((∀ op ∈ [((1 : Nat), (1 : Nat)), (0, 1)], op.1 + op.2 ≤ ([5, 6] : List Nat).length) ∧
      (runReads (CoverageTrackingSource.mk0 [5, 6]) [(1, 1), (0, 1)]).1 = true ∧
      (runReads (CoverageTrackingSource.mk0 [5, 6])
        [(1, 1), (0, 1)]).2.completeCoverageInternal = true) ∧
    ((opsUnion [((0 : Nat), (1 : Nat))]).card = ([5, 6] : List Nat).length - 1 ∧
      (runReads (CoverageTrackingSource.mk0 [5, 6]) [(0, 1)]).1 = true ∧
      (runReads (CoverageTrackingSource.mk0 [5, 6])
        [(0, 1)]).2.completeCoverageInternal = false) ∧
    ((⟨⟨[5, 6], 0⟩, [1, 0]⟩ : CoverageTrackingSource).accessPattern.getD 0 0 ≠ 0 ∧
      ((⟨⟨[5, 6], 0⟩, [1, 0]⟩ : CoverageTrackingSource).read 2).1 = .error .doubleRead ∧
      ((⟨⟨[5, 6], 0⟩, [1, 0]⟩ : CoverageTrackingSource).read 2).2.1 =
        (⟨[5, 6], 0⟩ : BufferSource).window 2 ∧
      ((⟨⟨[5, 6], 0⟩, [1, 0]⟩ : CoverageTrackingSource).read 2).2.2.src.cur =
        (0 : Int) + ((2 : Nat) : Int)) :=
  ⟨⟨by decide, claimC2.1 [5, 6] [(1, 1), (0, 1)] (by decide) (by decide) (by decide)⟩,
   ⟨by decide, claimC2.2.1 [5, 6] [(0, 1)] (by decide) (by decide) (by decide) (by decide)⟩,
   ⟨by decide, claimC2.2.2 ⟨⟨[5, 6], 0⟩, [1, 0]⟩ 2 0 (by decide) (by decide) (by decide)
      (by decide) (by decide)⟩⟩

/-- Witness for claim C3 (amended) at concrete inputs with the default
alignment 16: padding consumption from position 5, idempotence at the
aligned position 0, and the out-of-bounds failure when the padding would
cross the extent. -/
theorem claimC3_witness :
    ((1 ≤ 16 ∧ (16 : Nat) ∣ 2 ^ 64) ∧
      align 16 ⟨List.replicate 20 0, 5⟩ = (.ok (), ⟨List.replicate 20 0, 16⟩) ∧
      ((16 : Int) % (16 : Int) = 0)) ∧
    align 16 ⟨List.replicate 4 0, 0⟩ = (.ok (), ⟨List.replicate 4 0, 0⟩) ∧
    align 16 ⟨List.replicate 4 0, 1⟩ = (.error .outOfBounds, ⟨List.replicate 4 0, 1⟩) :=
  ⟨⟨⟨by decide, by decide⟩,
    (claimC3_amended 16 ⟨List.replicate 20 0, 5⟩ (by decide) (by decide) (by decide)
      (by decide) (by decide)).1 (by decide)⟩,
   (claimC3_amended 16 ⟨List.replicate 4 0, 0⟩ (by decide) (by decide) (by decide)
      (by decide) (by decide)).2.1 (by decide),
   (claimC3_amended 16 ⟨List.replicate 4 0, 1⟩ (by decide) (by decide) (by decide)
      (by decide) (by decide)).2.2 (by decide)⟩

/-- Witness for claim C4 at concrete inputs: successful and failed reads
and peeks over a two-byte buffer and a two-byte file. -/
theorem claimC4_witness :
    (FileSource.peek ⟨[3, 4], 0, false⟩ 1 = (.ok [3], ⟨[3, 4], 0, false⟩) ∧
      FileSource.tell ⟨[3, 4], 0, false⟩ = FileSource.tell ⟨[3, 4], 0, false⟩) ∧
    (BufferSource.read ⟨[3, 4], 0⟩ 1 = (.ok [3], ⟨[3, 4], 1⟩) ∧
      BufferSource.tell ⟨[3, 4], 1⟩ = BufferSource.tell ⟨[3, 4], 0⟩ + (1 : Nat)) ∧
    (FileSource.read ⟨[3, 4], 0, false⟩ 1 = (.ok [3], ⟨[3, 4], 1, false⟩) ∧
      FileSource.tell ⟨[3, 4], 1, false⟩ = FileSource.tell ⟨[3, 4], 0, false⟩ + (1 : Nat)) ∧
    (BufferSource.read ⟨[3, 4], 5⟩ 1 = (.error .outOfBounds, ⟨[3, 4], 5⟩) ∧
      (⟨[3, 4], 5⟩ : BufferSource) = ⟨[3, 4], 5⟩) ∧
    (readScalar 2 .BE ⟨[3, 4], 0⟩ = (.ok 772, ⟨[3, 4], 2⟩) ∧
      BufferSource.tell ⟨[3, 4], 2⟩ = BufferSource.tell ⟨[3, 4], 0⟩ + (2 : Nat)) ∧
    (peekScalar 2 .BE ⟨[3, 4], 0⟩).2 = ⟨[3, 4], 0⟩ :=
  ⟨⟨by decide, claimC4.2.1 ⟨[3, 4], 0, false⟩ 1 [3] ⟨[3, 4], 0, false⟩ (by decide)⟩,
   ⟨by decide, claimC4.2.2.1 ⟨[3, 4], 0⟩ 1 [3] ⟨[3, 4], 1⟩ (by decide)⟩,
   ⟨by decide, claimC4.2.2.2.1 ⟨[3, 4], 0, false⟩ 1 [3] ⟨[3, 4], 1, false⟩ (by decide)⟩,
   ⟨by decide, claimC4.2.2.2.2.1 ⟨[3, 4], 5⟩ 1 .outOfBounds ⟨[3, 4], 5⟩ (by decide)⟩,
   ⟨by decide, claimC4.2.2.2.2.2.1 2 .BE ⟨[3, 4], 0⟩ 772 ⟨[3, 4], 2⟩ (by decide)⟩,
   claimC4.2.2.2.2.2.2 2 .BE ⟨[3, 4], 0⟩⟩

/-- Witness for claim C5 at a concrete input: a two-byte null-free fixed
string read in big-endian (default) order. -/
theorem claimC5_witness :
    ((0 : Int) + ((2 : Nat) : Int) ≤ (⟨[1, 2], 0⟩ : BufferSource).size ∧
      (((readStringFixed 2 .BE ⟨[1, 2], 0⟩).1 = .error .invalidContent ↔
        0 ∈ (⟨[1, 2], 0⟩ : BufferSource).window 2) ∧
      (0 ∉ (⟨[1, 2], 0⟩ : BufferSource).window 2 →
        readStringFixed 2 .BE ⟨[1, 2], 0⟩ = (.ok [1, 2], ⟨[1, 2], 2⟩)))) :=
  ⟨by decide, claimC5.1 ⟨[1, 2], 0⟩ 2 .BE (by decide)⟩

/-- Witness for claim C6 at concrete inputs: a terminator at offset 1 of
`[1,0,2]`, and a source with no terminator. -/
theorem claimC6_witness :
    (([1, 0, 2] : List Nat).getD 1 0 = 0 ∧
      readCString .BE ⟨[1, 0, 2], 0⟩ = (.ok [1], ⟨[1, 0, 2], 2⟩)) ∧
    (readCString .BE ⟨[1, 2], 0⟩).1 = .error .outOfBounds :=
  ⟨⟨by decide, claimC6.1 ⟨[1, 0, 2], 0⟩ .BE 1 (by decide) (by decide) (by decide) (by decide)
      (by intro j h1 h2
          have hj : j = 0 := by omega
          subst hj
          decide)⟩,
   claimC6.2.1 ⟨[1, 2], 0⟩ .BE (by decide) (by decide)
      (by intro j h1 h2
          have h2a : j < 2 := by simpa using h2
          have hj : j = 0 ∨ j = 1 := by omega
          rcases hj with hj | hj <;> (subst hj; decide))⟩

/-- Witness for claim C7 (amended) at concrete inputs: a healthy one-byte
file seeks to 3 and to `size()+1`; a one-byte buffer seeks to `size()+1`;
the subsequent single-byte reads and peeks fail. -/
theorem claimC7_witness :
    ((⟨[9], 0, false⟩ : FileSource).fail = false ∧
      FileSource.seek ⟨[9], 0, false⟩ 3 = (.ok (), ⟨[9], 3, false⟩)) ∧
    (((BufferSource.seek ⟨[9], 0⟩ ((⟨[9], 0⟩ : BufferSource).size + 1)).read 1).1 =
        .error .outOfBounds ∧
      ((BufferSource.seek ⟨[9], 0⟩ ((⟨[9], 0⟩ : BufferSource).size + 1)).peek 1).1 =
        .error .outOfBounds) ∧
    (((FileSource.seek ⟨[9], 0, false⟩
        ((⟨[9], 0, false⟩ : FileSource).size + 1)).2.read 1).1 = .error .streamFail ∧
      ((FileSource.seek ⟨[9], 0, false⟩
        ((⟨[9], 0, false⟩ : FileSource).size + 1)).2.peek 1).1 = .error .streamFail) :=
  ⟨⟨rfl, claimC7_amended.2.1 ⟨[9], 0, false⟩ 3 rfl (by decide)⟩,
   claimC7_amended.2.2.1 ⟨[9], 0⟩,
   claimC7_amended.2.2.2 ⟨[9], 0, false⟩ rfl⟩

/-- Witness for claim C8 at a concrete input: alignment 4 from position 2
of `[9,9,0,0]`, whose two padding bytes are zero. -/
theorem claimC8_witness :
    (1 ≤ 4 ∧
      (alignZeroPad 4 ⟨[9, 9, 0, 0], 2⟩).2 = (align 4 ⟨[9, 9, 0, 0], 2⟩).2) ∧
    ((∀ b ∈ ([0, 0] : List Nat), b = 0) ∧
      alignZeroPad 4 ⟨[9, 9, 0, 0], 2⟩ = align 4 ⟨[9, 9, 0, 0], 2⟩) :=
  ⟨⟨by decide, (claimC8 4 ⟨[9, 9, 0, 0], 2⟩ (by decide)).1⟩,
   ⟨by decide, ((claimC8 4 ⟨[9, 9, 0, 0], 2⟩ (by decide)).2.2 [0, 0] ⟨[9, 9, 0, 0], 4⟩
      (by decide)).2 (by decide)⟩⟩

/-- Witness for claim C9 at a concrete input: after seeking to `-1` on a
one-byte buffer, a one-byte read passes the guard and accesses offset
`-1`, outside the region. -/
theorem claimC9_witness :
    ((-1 : Int) < 0 ∧ (-1 : Int) + ((1 : Nat) : Int) ≤ (⟨[5], -1⟩ : BufferSource).size ∧
      (BufferSource.read ⟨[5], -1⟩ 1).1 = .ok ((⟨[5], -1⟩ : BufferSource).window 1) ∧
      (-1 : Int) ∈ (⟨[5], -1⟩ : BufferSource).accessedOffsets 1 ∧
      ¬(∀ i ∈ (⟨[5], -1⟩ : BufferSource).accessedOffsets 1, 0 ≤ i)) ∧
    (((BufferSource.read ⟨[5], 3⟩ 1).1 = .error .outOfBounds ↔
        (⟨[5], 3⟩ : BufferSource).size < (3 : Int) + ((1 : Nat) : Int)) ∧
      ((BufferSource.peek ⟨[5], 3⟩ 1).1 = .error .outOfBounds ↔
        (⟨[5], 3⟩ : BufferSource).size < (3 : Int) + ((1 : Nat) : Int))) :=
  ⟨⟨by decide, by decide, claimC9.2 ⟨[5], -1⟩ 1 (by decide) (by decide) (by decide)⟩,
   claimC9.1 ⟨[5], 3⟩ 1⟩

/-- Witness for claim C10 (amended) at a concrete input: a two-byte
tracked source with offset 0 already read; a two-byte read from offset 0
raises the violation having bumped only offset 0 (to 2), offset 1 keeping
its count 0. -/
theorem claimC10_witness :
    ((⟨⟨[5, 6], 0⟩, [1, 0]⟩ : CoverageTrackingSource).accessPattern.getD 0 0 ≠ 0 ∧
      ((⟨⟨[5, 6], 0⟩, [1, 0]⟩ : CoverageTrackingSource).read 2).1 = .error .doubleRead ∧
      ((⟨⟨[5, 6], 0⟩, [1, 0]⟩ : CoverageTrackingSource).read 2).2.1 =
        (⟨[5, 6], 0⟩ : BufferSource).window 2 ∧
      ((⟨⟨[5, 6], 0⟩, [1, 0]⟩ : CoverageTrackingSource).read 2).2.2.src.cur =
        (0 : Int) + ((2 : Nat) : Int) ∧
      (∀ j, (((⟨⟨[5, 6], 0⟩, [1, 0]⟩ : CoverageTrackingSource).read
          2).2.2.accessPattern.getD j 0) =
        if 0 ≤ j ∧ j ≤ 0 then ([1, 0] : List Nat).getD j 0 + 1
        else ([1, 0] : List Nat).getD j 0)) :=
  ⟨by decide, claimC10_amended.1 ⟨⟨[5, 6], 0⟩, [1, 0]⟩ 2 0 (by decide) (by decide)
    (by decide) (by decide) (by decide) (by decide)
    (fun j h1 h2 => absurd h2 (by omega))⟩

end ZBinaryIO
